import Mathlib

/-!
Shallow embedding of the cluster-file utilities (`apps/cdhit.py`) and the
Entrez batch fetcher (`apps/entrez.py`).

Python strings are modelled as `List Char`; fallible Python code (code that
can raise) returns `Option`.  The string primitives used by the code
(`str.split`, `str.rstrip`, `int(...)`, slicing, `startswith`) are embedded
first, then the classes and functions of the two modules.
-/

/-- Python whitespace, the default separator set of `str.split()` and
`str.rstrip()`. -/
def isPySpace (c : Char) : Bool :=
  c = ' ' || c = '\t' || c = '\n' || c = '\r' || c = '\x0b' || c = '\x0c'

/-- Accumulator loop for `pySplit`. -/
def pySplitAux : List Char → List Char → List (List Char)
  | [], cur => if cur = [] then [] else [cur.reverse]
  | c :: cs, cur =>
    if isPySpace c then
      if cur = [] then pySplitAux cs [] else cur.reverse :: pySplitAux cs []
    else pySplitAux cs (c :: cur)

/-- Python `s.split()` with no argument: split on runs of whitespace,
discarding empty fields. -/
def pySplit (s : List Char) : List (List Char) := pySplitAux s []

def isDigitCh (c : Char) : Bool := '0' ≤ c && c ≤ '9'

def digitVal (c : Char) : Nat := c.toNat - '0'.toNat

/-- Value of a nonempty all-digit string; `none` otherwise. -/
def digitsToNatAux : List Char → Nat → Option Nat
  | [], acc => some acc
  | c :: cs, acc =>
    if isDigitCh c then digitsToNatAux cs (acc * 10 + digitVal c) else none

def digitsToNat (s : List Char) : Option Nat :=
  if s = [] then none else digitsToNatAux s 0

/-- Python `int(str)`: optional surrounding whitespace, an optional sign,
then decimal digits; raises (`none`) on anything else. -/
def pyInt (s : List Char) : Option Int :=
  let t := ((s.dropWhile isPySpace).reverse.dropWhile isPySpace).reverse
  match t with
  | '-' :: rest => (digitsToNat rest).map (fun n => -(n : Int))
  | '+' :: rest => (digitsToNat rest).map (fun n => (n : Int))
  | _ => (digitsToNat t).map (fun n => (n : Int))

/-- Split a string at the first occurrence of `sep`
(Python `s.split(sep, 1)` when the separator occurs); `none` when `sep`
does not occur. -/
def splitFirst (sep : List Char) : List Char → Option (List Char × List Char)
  | [] => if sep.isPrefixOf ([] : List Char) then some ([], []) else none
  | c :: cs =>
    if sep.isPrefixOf (c :: cs) then some ([], (c :: cs).drop sep.length)
    else (splitFirst sep cs).map (fun p => (c :: p.1, p.2))

/-- Python `s.split(sep)[0]`: the prefix before the first occurrence of
`sep`, or all of `s` when `sep` does not occur. -/
def beforeFirst (sep s : List Char) : List Char :=
  match splitFirst sep s with
  | some p => p.1
  | none => s

/-- Python `s.rstrip()`. -/
def pyRstrip (s : List Char) : List Char := (s.reverse.dropWhile isPySpace).reverse

/-- The last non-whitespace character of a string, when there is one. -/
def lastNonWhitespace (s : List Char) : Option Char :=
  (s.reverse.dropWhile isPySpace).head?

/-- One member line of a `.clstr` block: member name, sequence size in
nucleotides, and the representative flag. -/
structure ClstrLine where
  size : Int
  name : List Char
  rep : Bool
deriving DecidableEq, Repr

/-- Constructor `ClstrLine.__init__`:
`a, b = row.split('>', 1); a = a.split("nt")[0]; sid, size = a.split();`
`self.size = int(size); self.name = b.split("...")[0];`
`self.rep = (row.rstrip()[-1] == '*')`.  Any raising step yields `none`. -/
def ClstrLine.ofRow (row : List Char) : Option ClstrLine :=
  match splitFirst ['>'] row with
  | none => none
  | some (a, b) =>
    match pySplit (beforeFirst ['n', 't'] a) with
    | [_sid, sz] =>
      match pyInt sz with
      | none => none
      | some n =>
        match (pyRstrip row).getLast? with
        | none => none
        | some c =>
          some { size := n, name := beforeFirst ['.', '.', '.'] b, rep := c == '*' }
    | _ => none

/-- A line introducing a `.clstr` block. -/
def isHeader (l : List Char) : Bool :=
  match l with
  | '>' :: _ => true
  | _ => false

/-- Helper collecting the members of the current block (header `hdr`,
members so far `acc`, reversed) until the next header line. -/
def read_block_aux (hdr : List Char) (acc : List (List Char)) :
    List (List Char) → List (List Char × List (List Char))
  | [] => [(hdr, acc.reverse)]
  | l :: ls =>
    if isHeader l then (hdr, acc.reverse) :: read_block_aux l [] ls
    else read_block_aux hdr (l :: acc) ls

/-- Modelled from the spec: `read_block` (imported from `jcvi.formats.base`,
whose source is not among the files at hand) reads the file as blocks
delimited by lines starting with `>` (block header), grouping all lines up
to the next header into one cluster, one block per header, in file order. -/
def read_block : List (List Char) → List (List Char × List (List Char))
  | [] => []
  | l :: ls => if isHeader l then read_block_aux l [] ls else read_block ls

/-- Run an `Option`-valued function over a list, failing as soon as one
element fails — the loop body that raises aborts the construction. -/
def mapMo (f : α → Option β) : List α → Option (List β)
  | [] => some []
  | x :: xs =>
    match f x, mapMo f xs with
    | some y, some ys => some (y :: ys)
    | _, _ => none

/-- The member lines of one block, parsed: `[ClstrLine(x) for x in members]`. -/
def parseMembers (ms : List (List Char)) : Option (List ClstrLine) :=
  mapMo ClstrLine.ofRow ms

/-- Constructor `ClstrFile.__init__`: one cluster appended per block of the file. -/
def ClstrFile.ofLines (lines : List (List Char)) : Option (List (List ClstrLine)) :=
  mapMo (fun blk => parseMembers blk.2) (read_block lines)

/-- Loop of `ClstrFile.iter_reps`, with `i` the running index of `enumerate`. -/
def iter_reps_aux (i : Nat) : List (List ClstrLine) → List (Nat × List Char)
  | [] => []
  | ms :: rest =>
    ms.filterMap (fun b => if b.rep then some (i, b.name) else none) ++
      iter_reps_aux (i + 1) rest

/-- Method `ClstrFile.iter_reps`: yield `(i, b.name)` for every flagged member. -/
def iter_reps (cf : List (List ClstrLine)) : List (Nat × List Char) :=
  iter_reps_aux 0 cf

/-- Byte-wise lexicographic `<` on strings, as Python compares `str`. -/
def lexLt : List Char → List Char → Bool
  | [], [] => false
  | [], _ :: _ => true
  | _ :: _, [] => false
  | a :: as, b :: bs =>
    if a.toNat < b.toNat then true
    else if b.toNat < a.toNat then false
    else lexLt as bs

def insertKey (k : List Char) : List (List Char) → List (List Char)
  | [] => [k]
  | x :: xs => if lexLt k x then k :: x :: xs else x :: insertKey k xs

/-- Python `sorted` over the (distinct) grouping keys. -/
def sortKeys : List (List Char) → List (List Char)
  | [] => []
  | k :: ks => insertKey k (sortKeys ks)

/-- The distinct keys of the `defaultdict` built by `iter_reps_prefix`. -/
def dedupKeys : List (List Char) → List (List Char)
  | [] => []
  | k :: ks => if k ∈ ks then dedupKeys ks else k :: dedupKeys ks

/-- The fold computing Python `max(ms, key=lambda x: x.size)`: a new
element replaces the current best only when strictly larger. -/
def pyMaxFold (best : ClstrLine) : List ClstrLine → ClstrLine
  | [] => best
  | x :: xs => pyMaxFold (if best.size < x.size then x else best) xs

/-- Python `max(l, key=lambda x: x.size)`; `none` on the empty list. -/
def pyMax : List ClstrLine → Option ClstrLine
  | [] => none
  | x :: xs => some (pyMaxFold x xs)

/-- Group `d[pp]` of the defaultdict: the members whose name has `pp` as its length-`pfx` slice,
in encounter order. -/
def groupOf (pfx : Nat) (pp : List Char) (ms : List ClstrLine) : List ClstrLine :=
  ms.filter (fun b => b.name.take pfx == pp)

/-- The body of `iter_reps_prefix` for one cluster: group the members by
`b.name[:prefix]` into a `defaultdict`, then for `pp` in `sorted(d.items())`
yield the size-max of the group. -/
def repsOfCluster (pfx : Nat) (i : Nat) (ms : List ClstrLine) : List (Nat × List Char) :=
  (sortKeys (dedupKeys (ms.map (fun b => b.name.take pfx)))).filterMap
    (fun pp => (pyMax (groupOf pfx pp ms)).map (fun b => (i, b.name)))

def iter_reps_prefix_aux (pfx : Nat) (i : Nat) :
    List (List ClstrLine) → List (Nat × List Char)
  | [] => []
  | ms :: rest => repsOfCluster pfx i ms ++ iter_reps_prefix_aux pfx (i + 1) rest

/-- Method `ClstrFile.iter_reps_prefix` over the whole file. -/
def iter_reps_prefix (pfx : Nat) (cf : List (List ClstrLine)) :
    List (Nat × List Char) :=
  iter_reps_prefix_aux pfx 0 cf

/-- The `<name> with <N> sequences` description convention consumed by
`filter`: the embedded cluster size of a description, when it follows the
convention. -/
def descClusterSize (desc : List Char) : Option Int :=
  match pySplit desc with
  | [_name, w, sz, _seqs] => if w = "with".data then pyInt sz else none
  | _ => none

/-- Spec-side keep criterion of `filter`: the description does not start
with `singleton`, and the embedded cluster size is at least the minimum. -/
def keepPred (minsize : Int) (desc : List Char) : Bool :=
  !("singleton".data.isPrefixOf desc) &&
    (descClusterSize desc).any (fun n => decide (minsize ≤ n))

/-- One iteration of `filter`'s loop over a record description:
`some true` = record written, `some false` = record skipped, `none` = the
loop raises (tuple unpacking, the `assert`, or `int(...)`). -/
def keepDesc (minsize : Int) (desc : List Char) : Option Bool :=
  if "singleton".data.isPrefixOf desc then some false
  else
    match pySplit desc with
    | [_name, w, sz, _seqs] =>
      if w = "with".data then
        match pyInt sz with
        | none => none
        | some n => some (!decide (n < minsize))
      else none
    | _ => none

/-- Action `filter`: write, in input order, the records that pass the minimum
cluster size test; a record is `(description, sequence record)`. -/
def filter (minsize : Int) : List (List Char × α) → Option (List α)
  | [] => some []
  | (d, r) :: rest =>
    match keepDesc minsize d, filter minsize rest with
    | some true, some out => some (r :: out)
    | some false, some out => some out
    | _, _ => none

def digitChar10 (d : Nat) : Char :=
  match d with
  | 0 => '0' | 1 => '1' | 2 => '2' | 3 => '3' | 4 => '4'
  | 5 => '5' | 6 => '6' | 7 => '7' | 8 => '8' | _ => '9'

/-- Decimal digits of `n`, most significant first, in front of `acc`. -/
def natDigitsAux (n : Nat) (acc : List Char) : List Char :=
  if n < 10 then digitChar10 n :: acc
  else natDigitsAux (n / 10) (digitChar10 (n % 10) :: acc)
termination_by n
decreasing_by exact Nat.div_lt_self (by omega) (by omega)

/-- Python `str` of a nonnegative integer. -/
def strOfNat (n : Nat) : List Char := natDigitsAux n []

/-- The selection made by `ids`: a truthy `--prefix` option picks the
prefix-grouped mode, otherwise the exact-representative mode. -/
def selectedReads (pfxOpt : Option Nat) (cf : List (List ClstrLine)) :
    List (Nat × List Char) :=
  match pfxOpt with
  | some p => if p ≠ 0 then iter_reps_prefix p cf else iter_reps cf
  | none => iter_reps cf

/-- The lines `ids` writes to the `.ids` file:
`"\t".join(str(x) for x in (i, name))`, one line per selected read. -/
def idsLines (pfxOpt : Option Nat) (cf : List (List ClstrLine)) :
    List (List Char) :=
  (selectedReads pfxOpt cf).map (fun q => strOfNat q.1 ++ '\t' :: q.2)

/-- The remote Entrez collaborator, abstracted: `esearch` returns the list
of record identifiers for a term, `efetch` the raw record text of one
identifier. -/
structure EntrezOracle (T I : Type) where
  esearch : T → List I
  efetch : I → List Char

/-- Generator `batch_entrez`: the first component collects the yielded raw records,
the second the terms logged as errors (those whose search returned no
identifiers). -/
def batch_entrez (o : EntrezOracle T I) : List T → List (List Char) × List T
  | [] => ([], [])
  | t :: ts =>
    let ids := o.esearch t
    let rest := batch_entrez o ts
    (ids.map o.efetch ++ rest.1, (if ids.isEmpty then [t] else []) ++ rest.2)

/-! ### Helper lemmas about the string primitives -/

theorem splitFirst_eq_append {sep s a b : List Char}
    (h : splitFirst sep s = some (a, b)) : s = a ++ sep ++ b := by
  induction s generalizing a b with
  | nil =>
    unfold splitFirst at h
    split at h
    · next hp =>
      obtain ⟨rfl, rfl⟩ := Prod.mk.injEq .. ▸ Option.some.injEq .. ▸ h
      have : sep = [] := List.prefix_nil.mp (List.isPrefixOf_iff_prefix.mp hp)
      simp [this]
    · exact absurd h (by simp)
  | cons c cs ih =>
    unfold splitFirst at h
    split at h
    · next hp =>
      obtain ⟨t, ht⟩ := List.isPrefixOf_iff_prefix.mp hp
      obtain ⟨rfl, rfl⟩ := Prod.mk.injEq .. ▸ Option.some.injEq .. ▸ h
      have hdrop : List.drop sep.length (c :: cs) = t := by
        rw [← ht]; exact List.drop_left sep t
      rw [hdrop, List.nil_append, ht]
    · next hp =>
      obtain ⟨⟨a1, b1⟩, hs, heq⟩ := Option.map_eq_some'.mp h
      obtain ⟨rfl, rfl⟩ := Prod.mk.injEq .. ▸ heq
      simpa using ih hs

theorem splitFirst_min {sep s a b : List Char}
    (h : splitFirst sep s = some (a, b)) :
    ∀ a' b', s = a' ++ sep ++ b' → a.length ≤ a'.length := by
  induction s generalizing a b with
  | nil =>
    intro a' b' hs
    have : a' = [] := by
      cases a' with
      | nil => rfl
      | cons x xs => simp at hs
    subst this
    unfold splitFirst at h
    split at h
    · obtain ⟨rfl, rfl⟩ := Prod.mk.injEq .. ▸ Option.some.injEq .. ▸ h
      simp
    · exact absurd h (by simp)
  | cons c cs ih =>
    intro a' b' hs
    unfold splitFirst at h
    split at h
    · obtain ⟨rfl, rfl⟩ := Prod.mk.injEq .. ▸ Option.some.injEq .. ▸ h
      simp
    · next hp =>
      obtain ⟨⟨a1, b1⟩, hrec, heq⟩ := Option.map_eq_some'.mp h
      obtain ⟨rfl, rfl⟩ := Prod.mk.injEq .. ▸ heq
      cases a' with
      | nil =>
        exfalso
        apply hp
        apply List.isPrefixOf_iff_prefix.mpr
        exact ⟨b', by simpa using hs.symm⟩
      | cons x xs =>
        simp only [List.cons_append, List.cons.injEq] at hs
        obtain ⟨rfl, hs2⟩ := hs
        simpa using ih hrec xs b' hs2

theorem splitFirst_none_no_occur {sep s : List Char}
    (h : splitFirst sep s = none) (a b : List Char) : s ≠ a ++ sep ++ b := by
  induction s generalizing a with
  | nil =>
    intro hs
    unfold splitFirst at h
    split at h
    · exact absurd h (by simp)
    · next hp =>
      have hsep : sep = [] := by
        cases a with
        | nil =>
          cases sep with
          | nil => rfl
          | cons y ys => simp at hs
        | cons x xs => simp at hs
      exact hp (List.isPrefixOf_iff_prefix.mpr (hsep ▸ List.nil_prefix))
  | cons c cs ih =>
    intro hs
    unfold splitFirst at h
    split at h
    · exact absurd h (by simp)
    · next hp =>
      have hrec : splitFirst sep cs = none := Option.map_eq_none'.mp h
      cases a with
      | nil =>
        apply hp
        apply List.isPrefixOf_iff_prefix.mpr
        exact ⟨b, by simpa using hs.symm⟩
      | cons x xs =>
        simp only [List.cons_append, List.cons.injEq] at hs
        exact ih hrec xs hs.2

theorem splitFirst_single_some {c : Char} {s a b : List Char}
    (h : splitFirst [c] s = some (a, b)) : s = a ++ c :: b ∧ c ∉ a := by
  have hdec : s = a ++ c :: b := by simpa using splitFirst_eq_append h
  refine ⟨hdec, ?_⟩
  intro hc
  obtain ⟨u, v, huv⟩ := List.append_of_mem hc
  have hs : s = u ++ [c] ++ (v ++ c :: b) := by
    rw [hdec, huv]; simp
  have hlen := splitFirst_min h u (v ++ c :: b) hs
  rw [huv] at hlen
  simp at hlen

theorem splitFirst_single_none {c : Char} {s : List Char} (h : c ∉ s) :
    splitFirst [c] s = none := by
  induction s with
  | nil => simp [splitFirst]
  | cons d ds ih =>
    have hcd : c ≠ d := fun he => h (he ▸ List.mem_cons_self d ds)
    have hds : c ∉ ds := fun hm => h (List.mem_cons_of_mem d hm)
    unfold splitFirst
    rw [if_neg (by simp [List.isPrefixOf, hcd]), ih hds]
    rfl

theorem splitFirst_single_append {c : Char} {a b : List Char} (h : c ∉ a) :
    splitFirst [c] (a ++ c :: b) = some (a, b) := by
  induction a with
  | nil => simp [splitFirst, List.isPrefixOf]
  | cons d ds ih =>
    have hcd : c ≠ d := fun he => h (he ▸ List.mem_cons_self d ds)
    have hds : c ∉ ds := fun hm => h (List.mem_cons_of_mem d hm)
    show splitFirst [c] (d :: (ds ++ c :: b)) = _
    unfold splitFirst
    rw [if_neg (by simp [List.isPrefixOf, hcd]), ih hds]
    rfl

theorem beforeFirst_not_infix {sep s : List Char} (hs : sep ≠ []) :
    ¬ sep <:+: beforeFirst sep s := by
  cases hsp : splitFirst sep s with
  | none =>
    simp only [beforeFirst, hsp]
    rintro ⟨u, v, huv⟩
    exact splitFirst_none_no_occur hsp u v huv.symm
  | some p =>
    obtain ⟨a, b⟩ := p
    simp only [beforeFirst, hsp]
    rintro ⟨u, v, huv⟩
    have hdec := splitFirst_eq_append hsp
    have hsrw : s = u ++ sep ++ (v ++ sep ++ b) := by
      rw [hdec, ← huv]; simp
    have hlen := splitFirst_min hsp u (v ++ sep ++ b) hsrw
    have : u.length + sep.length + v.length = a.length := by
      rw [← huv]; simp; omega
    have hsl : 0 < sep.length := List.length_pos.mpr hs
    omega

theorem getLast_pyRstrip (s : List Char) :
    (pyRstrip s).getLast? = lastNonWhitespace s := by
  unfold pyRstrip lastNonWhitespace
  exact List.getLast?_reverse _

theorem mapMo_eq_some_iff {f : α → Option β} {l : List α} {l' : List β} :
    mapMo f l = some l' ↔ List.Forall₂ (fun x y => f x = some y) l l' := by
  constructor
  · intro h
    induction l generalizing l' with
    | nil =>
      unfold mapMo at h
      injection h with h2
      rw [← h2]
      exact List.Forall₂.nil
    | cons x xs ih =>
      unfold mapMo at h
      split at h
      · next y ys hy hys =>
        obtain rfl := Option.some.injEq .. ▸ h
        exact List.Forall₂.cons hy (ih hys)
      · exact absurd h (by simp)
  · intro h
    induction h with
    | nil => rfl
    | cons hxy _ ih =>
      unfold mapMo
      rw [hxy, ih]

theorem read_block_aux_length (hdr : List Char) (acc ls : List (List Char)) :
    (read_block_aux hdr acc ls).length = ls.countP (fun l => isHeader l) + 1 := by
  induction ls generalizing hdr acc with
  | nil => simp [read_block_aux]
  | cons l ls ih =>
    unfold read_block_aux
    by_cases hl : isHeader l
    · rw [if_pos hl]
      simp [List.countP_cons, hl, ih]
    · rw [if_neg hl]
      simp [List.countP_cons, hl, ih]

theorem read_block_length (lines : List (List Char)) :
    (read_block lines).length = lines.countP (fun l => isHeader l) := by
  induction lines with
  | nil => rfl
  | cons l ls ih =>
    unfold read_block
    by_cases hl : isHeader l
    · rw [if_pos hl, read_block_aux_length]
      simp [List.countP_cons, hl]
    · rw [if_neg hl, ih]
      simp [List.countP_cons, hl]

theorem filterMap_if_eq_filter_map {p : α → Bool} {f : α → β} (l : List α) :
    l.filterMap (fun x => if p x then some (f x) else none) = (l.filter p).map f := by
  induction l with
  | nil => rfl
  | cons x xs ih =>
    by_cases h : p x <;>
      simp [List.filterMap_cons, List.filter_cons, h, ih]

theorem iter_reps_aux_eq (n : Nat) (cf : List (List ClstrLine)) :
    iter_reps_aux n cf =
      (cf.enumFrom n).flatMap
        (fun p => (p.2.filter (fun b => b.rep)).map (fun b => (p.1, b.name))) := by
  induction cf generalizing n with
  | nil => rfl
  | cons ms rest ih =>
    show ms.filterMap _ ++ iter_reps_aux (n + 1) rest = _
    rw [List.enumFrom_cons, List.flatMap_cons, ih (n + 1), filterMap_if_eq_filter_map]

theorem pyMaxFold_spec (xs : List ClstrLine) : ∀ best : ClstrLine,
    pyMaxFold best xs ∈ best :: xs ∧
    (∀ y ∈ best :: xs, y.size ≤ (pyMaxFold best xs).size) ∧
    (pyMaxFold best xs = best ∨
      (best.size < (pyMaxFold best xs).size ∧
        ∃ x₁ x₂, xs = x₁ ++ pyMaxFold best xs :: x₂ ∧
          ∀ y ∈ x₁, y.size < (pyMaxFold best xs).size)) := by
  induction xs with
  | nil =>
    intro best
    refine ⟨List.mem_cons_self .., ?_, Or.inl rfl⟩
    intro y hy
    simp only [pyMaxFold]
    rw [List.mem_singleton.mp hy]
  | cons x xs ih =>
    intro best
    rw [pyMaxFold]
    by_cases hbx : best.size < x.size
    · rw [if_pos hbx]
      obtain ⟨hmem, hmax, hfirst⟩ := ih x
      refine ⟨?_, ?_, Or.inr ?_⟩
      · exact List.mem_cons_of_mem best hmem
      · intro y hy
        rcases List.mem_cons.mp hy with rfl | hy2
        · exact le_of_lt (lt_of_lt_of_le hbx (hmax x (List.mem_cons_self ..)))
        · exact hmax y hy2
      · rcases hfirst with heq | ⟨hlt, x₁, x₂, hdec, hsm⟩
        · rw [heq]
          exact ⟨hbx, [], xs, rfl, by simp⟩
        · refine ⟨lt_trans hbx hlt, x :: x₁, x₂, by rw [List.cons_append, ← hdec], ?_⟩
          intro y hy
          rcases List.mem_cons.mp hy with rfl | hy2
          · exact hlt
          · exact hsm y hy2
    · rw [if_neg hbx]
      obtain ⟨hmem, hmax, hfirst⟩ := ih best
      have hxb : x.size ≤ best.size := le_of_not_lt hbx
      refine ⟨?_, ?_, ?_⟩
      · rcases List.mem_cons.mp hmem with heq | hmem2
        · rw [heq]; exact List.mem_cons_self ..
        · exact List.mem_cons_of_mem best (List.mem_cons_of_mem x hmem2)
      · intro y hy
        rcases List.mem_cons.mp hy with rfl | hy2
        · exact hmax y (List.mem_cons_self ..)
        · rcases List.mem_cons.mp hy2 with rfl | hy3
          · exact le_trans hxb (hmax best (List.mem_cons_self ..))
          · exact hmax y (List.mem_cons_of_mem best hy3)
      · rcases hfirst with heq | ⟨hlt, x₁, x₂, hdec, hsm⟩
        · exact Or.inl heq
        · refine Or.inr ⟨hlt, x :: x₁, x₂, by rw [List.cons_append, ← hdec], ?_⟩
          intro y hy
          rcases List.mem_cons.mp hy with rfl | hy2
          · exact lt_of_le_of_lt hxb hlt
          · exact hsm y hy2

theorem pyMax_spec {l : List ClstrLine} {m : ClstrLine} (h : pyMax l = some m) :
    m ∈ l ∧ (∀ y ∈ l, y.size ≤ m.size) ∧
    ∃ l₁ l₂, l = l₁ ++ m :: l₂ ∧ ∀ y ∈ l₁, y.size < m.size := by
  cases l with
  | nil => exact absurd h (by simp [pyMax])
  | cons x xs =>
    have hm : pyMaxFold x xs = m := by
      have := Option.some.injEq .. ▸ h
      exact this
    obtain ⟨hmem, hmax, hfirst⟩ := pyMaxFold_spec xs x
    rw [hm] at hmem hmax hfirst
    refine ⟨hmem, hmax, ?_⟩
    rcases hfirst with heq | ⟨hlt, x₁, x₂, hdec, hsm⟩
    · exact ⟨[], xs, by rw [heq]; rfl, by simp⟩
    · refine ⟨x :: x₁, x₂, by simp [hdec], ?_⟩
      intro y hy
      rcases List.mem_cons.mp hy with rfl | hy2
      · exact hlt
      · exact hsm y hy2

theorem mem_insertKey {x k : List Char} {l : List (List Char)} :
    x ∈ insertKey k l ↔ x = k ∨ x ∈ l := by
  induction l with
  | nil => simp [insertKey]
  | cons y ys ih =>
    unfold insertKey
    by_cases h : lexLt k y
    · rw [if_pos h]; simp
    · rw [if_neg h]; simp [ih]; tauto

theorem mem_sortKeys {x : List Char} {l : List (List Char)} :
    x ∈ sortKeys l ↔ x ∈ l := by
  induction l with
  | nil => simp [sortKeys]
  | cons y ys ih =>
    unfold sortKeys
    rw [mem_insertKey, ih]
    simp

theorem mem_dedupKeys {x : List Char} {l : List (List Char)} :
    x ∈ dedupKeys l ↔ x ∈ l := by
  induction l with
  | nil => simp [dedupKeys]
  | cons y ys ih =>
    unfold dedupKeys
    by_cases h : y ∈ ys
    · rw [if_pos h, ih]
      simp only [List.mem_cons]
      constructor
      · exact Or.inr
      · rintro (rfl | hm)
        · exact h
        · exact hm
    · rw [if_neg h]
      simp [ih]

theorem dedupKeys_nodup (l : List (List Char)) : (dedupKeys l).Nodup := by
  induction l with
  | nil => simp [dedupKeys]
  | cons y ys ih =>
    unfold dedupKeys
    by_cases h : y ∈ ys
    · rw [if_pos h]; exact ih
    · rw [if_neg h]
      exact List.Nodup.cons (fun hm => h (mem_dedupKeys.mp hm)) ih

theorem lexLt_asymm {a b : List Char} (h : lexLt a b = true) : lexLt b a = false := by
  induction a generalizing b with
  | nil =>
    cases b with
    | nil => simp [lexLt] at h
    | cons y ys => simp [lexLt]
  | cons x xs ih =>
    cases b with
    | nil => simp [lexLt] at h
    | cons y ys =>
      unfold lexLt at h ⊢
      rcases Nat.lt_trichotomy x.toNat y.toNat with hlt | heq | hgt
      · rw [if_neg (by omega), if_pos hlt]
      · rw [if_neg (by omega), if_neg (by omega)] at h ⊢
        exact ih h
      · rw [if_pos hgt, if_neg (by omega)] at h
        exact absurd h (by simp)

theorem lexLt_connex {a b : List Char} (hne : a ≠ b) :
    lexLt a b = true ∨ lexLt b a = true := by
  induction a generalizing b with
  | nil =>
    cases b with
    | nil => exact absurd rfl hne
    | cons y ys => left; simp [lexLt]
  | cons x xs ih =>
    cases b with
    | nil => right; simp [lexLt]
    | cons y ys =>
      unfold lexLt
      rcases Nat.lt_trichotomy x.toNat y.toNat with hlt | heq | hgt
      · left; rw [if_pos hlt]
      · have hxy : x = y := by
          simpa [Char.ext_iff, UInt32.ext_iff, Char.toNat, UInt32.toNat] using heq
        subst hxy
        have hne2 : xs ≠ ys := fun h2 => hne (h2 ▸ rfl)
        rcases ih hne2 with h | h
        · left; rw [if_neg (by omega), if_neg (by omega)]; exact h
        · right; rw [if_neg (by omega), if_neg (by omega)]; exact h
      · right; rw [if_pos hgt]

theorem lexLt_trans {a b c : List Char} (hab : lexLt a b = true)
    (hbc : lexLt b c = true) : lexLt a c = true := by
  induction a generalizing b c with
  | nil =>
    cases c with
    | nil =>
      cases b with
      | nil => exact hab
      | cons y ys => simp [lexLt] at hbc
    | cons z zs => simp [lexLt]
  | cons x xs ih =>
    cases b with
    | nil => simp [lexLt] at hab
    | cons y ys =>
      cases c with
      | nil => simp [lexLt] at hbc
      | cons z zs =>
        unfold lexLt at hab hbc ⊢
        rcases Nat.lt_trichotomy x.toNat y.toNat with h1 | h1 | h1
        · rcases Nat.lt_trichotomy y.toNat z.toNat with h2 | h2 | h2
          · rw [if_pos (by omega)]
          · rw [if_pos (by omega)]
          · rw [if_pos h1] at hab
            rw [if_neg (by omega), if_pos h2] at hbc
            exact absurd hbc (by simp)
        · rcases Nat.lt_trichotomy y.toNat z.toNat with h2 | h2 | h2
          · rw [if_pos (by omega)]
          · rw [if_neg (by omega), if_neg (by omega)]
            rw [if_neg (by omega), if_neg (by omega)] at hab
            rw [if_neg (by omega), if_neg (by omega)] at hbc
            exact ih hab hbc
          · rw [if_neg (by omega), if_pos h2] at hbc
            exact absurd hbc (by simp)
        · rw [if_neg (by omega), if_pos h1] at hab
          exact absurd hab (by simp)

theorem insertKey_pairwise {k : List Char} {l : List (List Char)}
    (h : l.Pairwise (fun a b => lexLt b a = false)) :
    (insertKey k l).Pairwise (fun a b => lexLt b a = false) := by
  induction l with
  | nil => simp [insertKey]
  | cons x xs ih =>
    unfold insertKey
    obtain ⟨hx, hxs⟩ := List.pairwise_cons.mp h
    by_cases hkx : lexLt k x
    · rw [if_pos hkx]
      apply List.pairwise_cons.mpr
      refine ⟨?_, h⟩
      intro b hb
      rcases List.mem_cons.mp hb with rfl | hb2
      · exact lexLt_asymm hkx
      · have hxb : lexLt b x = false := hx b hb2
        by_cases hbk : lexLt b k = true
        · have hbx : lexLt b x = true := lexLt_trans hbk hkx
          rw [hbx] at hxb
          exact absurd hxb (by simp)
        · exact Bool.not_eq_true _ ▸ hbk
    · rw [if_neg hkx]
      apply List.pairwise_cons.mpr
      refine ⟨?_, ih hxs⟩
      intro b hb
      rcases mem_insertKey.mp hb with rfl | hb2
      · exact Bool.not_eq_true _ ▸ hkx
      · exact hx b hb2

theorem sortKeys_pairwise (l : List (List Char)) :
    (sortKeys l).Pairwise (fun a b => lexLt b a = false) := by
  induction l with
  | nil => simp [sortKeys]
  | cons k ks ih => exact insertKey_pairwise ih

theorem insertKey_perm (k : List Char) (l : List (List Char)) :
    (insertKey k l).Perm (k :: l) := by
  induction l with
  | nil => simp [insertKey]
  | cons x xs ih =>
    unfold insertKey
    by_cases hkx : lexLt k x
    · rw [if_pos hkx]
    · rw [if_neg hkx]
      exact (ih.cons x).trans (List.Perm.swap k x xs)

theorem sortKeys_perm (l : List (List Char)) : (sortKeys l).Perm l := by
  induction l with
  | nil => simp [sortKeys]
  | cons k ks ih =>
    exact (insertKey_perm k (sortKeys ks)).trans (ih.cons k)

theorem sortKeys_pairwise_lt {l : List (List Char)} (h : l.Nodup) :
    (sortKeys l).Pairwise (fun a b => lexLt a b = true) := by
  have hnd : (sortKeys l).Nodup := ((sortKeys_perm l).nodup_iff).mpr h
  have hle := sortKeys_pairwise l
  have := List.Pairwise.and hnd hle
  apply this.imp
  intro a b hab
  obtain ⟨hne, hble⟩ := hab
  rcases lexLt_connex hne with hl | hl
  · exact hl
  · rw [hl] at hble
    exact absurd hble (by simp)

theorem filterMap_forall₂ {f : α → Option β} {l : List α}
    (h : ∀ x ∈ l, ∃ y, f x = some y) :
    List.Forall₂ (fun x y => f x = some y) l (l.filterMap f) := by
  induction l with
  | nil => exact List.Forall₂.nil
  | cons x xs ih =>
    obtain ⟨y, hy⟩ := h x (List.mem_cons_self ..)
    rw [List.filterMap_cons, hy]
    exact List.Forall₂.cons hy (ih (fun z hz => h z (List.mem_cons_of_mem x hz)))

theorem groupOf_pyMax_some {pfx : Nat} {pp : List Char} {ms : List ClstrLine}
    (h : pp ∈ ms.map (fun b => b.name.take pfx)) :
    ∃ m, pyMax (groupOf pfx pp ms) = some m := by
  obtain ⟨b, hb, hbp⟩ := List.mem_map.mp h
  have hbg : b ∈ groupOf pfx pp ms :=
    List.mem_filter.mpr ⟨hb, by simp [hbp]⟩
  cases hg : groupOf pfx pp ms with
  | nil => rw [hg] at hbg; exact absurd hbg (by simp)
  | cons x xs => exact ⟨pyMaxFold x xs, rfl⟩

theorem mem_groupOf_key {pfx : Nat} {pp : List Char} {ms : List ClstrLine}
    {b : ClstrLine} (h : b ∈ groupOf pfx pp ms) : b.name.take pfx = pp := by
  have := (List.mem_filter.mp h).2
  simpa using this

theorem repsOfCluster_forall₂ (pfx i : Nat) (ms : List ClstrLine) :
    List.Forall₂
      (fun pp q =>
        q.1 = i ∧ ∃ m, pyMax (groupOf pfx pp ms) = some m ∧ q.2 = m.name)
      (sortKeys (dedupKeys (ms.map (fun b => b.name.take pfx))))
      (repsOfCluster pfx i ms) := by
  unfold repsOfCluster
  have hall : ∀ pp ∈ sortKeys (dedupKeys (ms.map (fun b => b.name.take pfx))),
      ∃ q, (pyMax (groupOf pfx pp ms)).map (fun b => (i, b.name)) = some q := by
    intro pp hpp
    have hpm : pp ∈ ms.map (fun b => b.name.take pfx) :=
      mem_dedupKeys.mp (mem_sortKeys.mp hpp)
    obtain ⟨m, hm⟩ := groupOf_pyMax_some hpm
    exact ⟨(i, m.name), by rw [hm]; rfl⟩
  apply (filterMap_forall₂ hall).imp
  intro pp q hq
  obtain ⟨m, hm, hqm⟩ := Option.map_eq_some'.mp hq
  exact ⟨by rw [← hqm], m, hm, by rw [← hqm]⟩

theorem repsOfCluster_keys (pfx i : Nat) (ms : List ClstrLine) :
    (repsOfCluster pfx i ms).map (fun q => q.2.take pfx)
      = sortKeys (dedupKeys (ms.map (fun b => b.name.take pfx))) := by
  suffices haux : ∀ (keys : List (List Char)) (qs : List (Nat × List Char)),
      List.Forall₂
        (fun pp q =>
          q.1 = i ∧ ∃ m, pyMax (groupOf pfx pp ms) = some m ∧ q.2 = m.name)
        keys qs →
      qs.map (fun q => q.2.take pfx) = keys by
    exact haux _ _ (repsOfCluster_forall₂ pfx i ms)
  intro keys qs hf
  induction hf with
  | nil => rfl
  | cons hr _ ih =>
    obtain ⟨_, m, hm, hqm⟩ := hr
    have hmg := (pyMax_spec hm).1
    have hkey := mem_groupOf_key hmg
    simp only [List.map_cons, ih, hqm, hkey]

theorem keepDesc_eq_keepPred {minsize : Int} {d : List Char} {b : Bool}
    (h : keepDesc minsize d = some b) : b = keepPred minsize d := by
  unfold keepDesc at h
  unfold keepPred
  by_cases hsing : "singleton".data.isPrefixOf d
  · rw [if_pos hsing] at h
    obtain rfl := Option.some.injEq .. ▸ h
    simp [hsing]
  · rw [if_neg hsing] at h
    split at h
    · next _name w sz _seqs hps =>
      split at h
      · next hw =>
        split at h
        · exact absurd h (by simp)
        · next n hn =>
          obtain rfl := Option.some.injEq .. ▸ h
          subst hw
          simp only [descClusterSize, hps, hn, hsing, Bool.not_false, Bool.true_and,
            if_true, Option.any_some]
          rcases lt_or_le n minsize with hlt | hle
          · simp [hlt, not_le.mpr hlt]
          · simp [hle, not_lt.mpr hle]
      · exact absurd h (by simp)
    · exact absurd h (by simp)

theorem filter_eq_keepPred {minsize : Int} {recs : List (List Char × α)}
    {out : List α} (h : filter minsize recs = some out) :
    out = (recs.filter (fun p => keepPred minsize p.1)).map Prod.snd := by
  induction recs generalizing out with
  | nil =>
    unfold filter at h
    injection h with h2
    rw [← h2]
    rfl
  | cons pr rest ih =>
    obtain ⟨d, r⟩ := pr
    unfold filter at h
    split at h
    · next out' hkd hrest =>
      obtain rfl := Option.some.injEq .. ▸ h
      have hb := keepDesc_eq_keepPred hkd
      rw [List.filter_cons, if_pos (by rw [← hb])]
      rw [List.map_cons, ih hrest]
    · next out' hkd hrest =>
      obtain rfl := Option.some.injEq .. ▸ h
      have hb := keepDesc_eq_keepPred hkd
      rw [List.filter_cons, if_neg (by rw [← hb]; simp)]
      exact ih hrest
    · exact absurd h (by simp)

theorem digitChar10_ne_tab (d : Nat) : digitChar10 d ≠ '\t' := by
  unfold digitChar10
  split <;> decide

theorem mem_natDigitsAux {n : Nat} {acc : List Char} {c : Char}
    (h : c ∈ natDigitsAux n acc) : c ∈ acc ∨ ∃ d, c = digitChar10 d := by
  induction n using Nat.strong_induction_on generalizing acc with
  | _ n ih =>
    rw [natDigitsAux] at h
    by_cases h10 : n < 10
    · rw [if_pos h10] at h
      rcases List.mem_cons.mp h with rfl | hacc
      · exact Or.inr ⟨n, rfl⟩
      · exact Or.inl hacc
    · rw [if_neg h10] at h
      rcases ih (n / 10) (Nat.div_lt_self (by omega) (by omega)) h with hacc | hd
      · rcases List.mem_cons.mp hacc with rfl | h2
        · exact Or.inr ⟨n % 10, rfl⟩
        · exact Or.inl h2
      · exact Or.inr hd

theorem tab_not_mem_strOfNat (n : Nat) : '\t' ∉ strOfNat n := by
  intro h
  rcases mem_natDigitsAux h with h2 | ⟨d, hd⟩
  · exact absurd h2 (List.not_mem_nil _)
  · exact digitChar10_ne_tab d hd.symm

theorem iter_reps_prefix_aux_eq (pfx n : Nat) (cf : List (List ClstrLine)) :
    iter_reps_prefix_aux pfx n cf
      = (cf.enumFrom n).flatMap (fun p => repsOfCluster pfx p.1 p.2) := by
  induction cf generalizing n with
  | nil => rfl
  | cons ms rest ih =>
    show repsOfCluster pfx n ms ++ _ = _
    rw [List.enumFrom_cons, List.flatMap_cons, ih (n + 1)]

theorem iter_reps_aux_forall₂ {cf : List (List ClstrLine)}
    (h : ∀ ms ∈ cf, ms.countP (fun b => b.rep) = 1) (n : Nat) :
    List.Forall₂
      (fun (p : Nat × List ClstrLine) (q : Nat × List Char) =>
        q.1 = p.1 ∧
          ∃ b, b.rep = true ∧ p.2.filter (fun x => x.rep) = [b] ∧ q.2 = b.name)
      (cf.enumFrom n) (iter_reps_aux n cf) := by
  induction cf generalizing n with
  | nil => exact List.Forall₂.nil
  | cons ms rest ih =>
    have h1 := h ms (List.mem_cons_self ..)
    rw [List.countP_eq_length_filter] at h1
    obtain ⟨b, hb⟩ := List.length_eq_one.mp h1
    have hbr : b.rep = true := by
      have hbm : b ∈ ms.filter (fun x => x.rep) := by
        rw [hb]; exact List.mem_singleton_self b
      simpa using (List.mem_filter.mp hbm).2
    rw [List.enumFrom_cons]
    show List.Forall₂ _ _ (ms.filterMap _ ++ iter_reps_aux (n + 1) rest)
    rw [filterMap_if_eq_filter_map, hb]
    exact List.Forall₂.cons ⟨rfl, b, hbr, hb, rfl⟩
      (ih (fun m hm => h m (List.mem_cons_of_mem ms hm)) (n + 1))

/-! ### The claims -/

/-- C10: `iter_reps` yields one `(cluster index, name)` pair for every
member whose representative flag is set, in member order: a cluster with
no flagged member contributes no pair, and a cluster with several flagged
members contributes one pair per flagged member. -/
theorem iter_reps_all_flagged :
    (∀ cf : List (List ClstrLine),
        iter_reps cf = cf.enum.flatMap
          (fun p => (p.2.filter (fun b => b.rep)).map (fun b => (p.1, b.name)))) ∧
    iter_reps [[⟨1, "X".data, false⟩], [⟨1, "A".data, true⟩, ⟨2, "B".data, true⟩]]
      = [(1, "A".data), (1, "B".data)] := by
  constructor
  · intro cf
    exact iter_reps_aux_eq 0 cf
  · rfl

/-- C3: when exactly one member per cluster carries the representative
flag, `iter_reps` yields exactly one `(cluster index, name)` pair per
cluster, in cluster order, carrying that flagged member's name. -/
theorem exact_rep_one_per_cluster {cf : List (List ClstrLine)}
    (h : ∀ ms ∈ cf, ms.countP (fun b => b.rep) = 1) :
    List.Forall₂
      (fun (p : Nat × List ClstrLine) (q : Nat × List Char) =>
        q.1 = p.1 ∧
          ∃ b, b.rep = true ∧ p.2.filter (fun x => x.rep) = [b] ∧ q.2 = b.name)
      cf.enum (iter_reps cf) :=
  iter_reps_aux_forall₂ h 0

theorem exact_rep_one_per_cluster_witness :
    List.Forall₂
      (fun (p : Nat × List ClstrLine) (q : Nat × List Char) =>
        q.1 = p.1 ∧
          ∃ b, b.rep = true ∧ p.2.filter (fun x => x.rep) = [b] ∧ q.2 = b.name)
      ([[⟨7, "A".data, true⟩]] : List (List ClstrLine)).enum
      (iter_reps [[⟨7, "A".data, true⟩]]) :=
  exact_rep_one_per_cluster (by decide)

/-- C2: prefix-grouped selection groups a cluster's members by the first N
name characters and yields, for each group, the member with the largest
size, ties broken in favour of the member encountered first; the spec's
example cluster yields AAA2 then BBB1. -/
theorem prefix_grouped_selection :
    (∀ (l : List ClstrLine) (m : ClstrLine), pyMax l = some m →
        m ∈ l ∧ (∀ y ∈ l, y.size ≤ m.size) ∧
        ∃ l₁ l₂, l = l₁ ++ m :: l₂ ∧ ∀ y ∈ l₁, y.size < m.size) ∧
    (∀ pfx i ms, List.Forall₂
        (fun pp q =>
          q.1 = i ∧ ∃ m, pyMax (groupOf pfx pp ms) = some m ∧ q.2 = m.name)
        (sortKeys (dedupKeys (ms.map (fun b => b.name.take pfx))))
        (repsOfCluster pfx i ms)) ∧
    repsOfCluster 3 0
        [⟨10, "AAA1".data, false⟩, ⟨50, "AAA2".data, false⟩, ⟨5, "BBB1".data, false⟩]
      = [(0, "AAA2".data), (0, "BBB1".data)] := by
  refine ⟨?_, ?_, by decide⟩
  · intro l m hm
    exact pyMax_spec hm
  · intro pfx i ms
    exact repsOfCluster_forall₂ pfx i ms

theorem prefix_grouped_selection_witness :
    (⟨50, "AAA2".data, false⟩ : ClstrLine) ∈
      [(⟨10, "AAA1".data, false⟩ : ClstrLine), ⟨50, "AAA2".data, false⟩] :=
  (prefix_grouped_selection.1 _ _ (by decide)).1

/-- C9: within each cluster, prefix-grouped selection yields its per-group
representatives in strictly increasing lexicographic order of the
N-character prefix key — not in first-encounter order, as the concrete
cluster shows — while clusters themselves are visited in file order. -/
theorem prefix_groups_sorted_order :
    (∀ pfx i ms,
        ((repsOfCluster pfx i ms).map (fun q => q.2.take pfx)).Pairwise
          (fun a b => lexLt a b = true)) ∧
    (∀ pfx cf, iter_reps_prefix pfx cf
        = cf.enum.flatMap (fun p => repsOfCluster pfx p.1 p.2)) ∧
    repsOfCluster 3 0 [⟨5, "BBB1".data, false⟩, ⟨50, "AAA2".data, false⟩]
      = [(0, "AAA2".data), (0, "BBB1".data)] ∧
    repsOfCluster 3 0 [⟨5, "BBB1".data, false⟩, ⟨50, "AAA2".data, false⟩]
      ≠ [(0, "BBB1".data), (0, "AAA2".data)] := by
  refine ⟨?_, ?_, by decide, by decide⟩
  · intro pfx i ms
    rw [repsOfCluster_keys]
    exact sortKeys_pairwise_lt (dedupKeys_nodup _)
  · intro pfx cf
    exact iter_reps_prefix_aux_eq pfx 0 cf

/-- C7: the `ids` command writes one line per selected representative, in
selection order, each line the cluster index and the name separated by a
tab (the index part never contains a tab, so the first tab is the
separator). -/
theorem ids_output_lines (po : Option Nat) (cf : List (List ClstrLine)) :
    List.Forall₂
      (fun line q => splitFirst ['\t'] line = some (strOfNat q.1, q.2))
      (idsLines po cf) (selectedReads po cf) := by
  unfold idsLines
  rw [List.forall₂_map_left_iff]
  apply List.forall₂_same.mpr
  intro q hq
  exact splitFirst_single_append (tab_not_mem_strOfNat q.1)

/-- C8: the Entrez batch fetcher processes terms one at a time in order;
a term whose search returns no identifiers is logged as an error and
skipped (nothing is yielded for it and there is no retry), while each
identifier returned for a term yields exactly one raw record text. -/
theorem batch_entrez_skip_empty {T I : Type} (o : EntrezOracle T I)
    (terms : List T) :
    (batch_entrez o terms).1 = terms.flatMap (fun t => (o.esearch t).map o.efetch) ∧
    (batch_entrez o terms).2 = terms.filter (fun t => (o.esearch t).isEmpty) := by
  induction terms with
  | nil => exact ⟨rfl, rfl⟩
  | cons t ts ih =>
    by_cases he : (o.esearch t).isEmpty <;>
      simp [batch_entrez, ih.1, ih.2, List.filter_cons, he]

/-- C4: parsing a `.clstr` file yields exactly one cluster per `>`-header
block, in file block order; the value is built once by the constructor and
only read afterwards. -/
theorem clstrfile_blocks_in_order {lines : List (List Char)}
    {cs : List (List ClstrLine)} (h : ClstrFile.ofLines lines = some cs) :
    cs.length = lines.countP (fun l => isHeader l) ∧
    List.Forall₂ (fun blk c => parseMembers blk.2 = some c)
      (read_block lines) cs := by
  have hf := mapMo_eq_some_iff.mp h
  refine ⟨?_, hf⟩
  rw [← hf.length_eq, read_block_length]

theorem clstrfile_blocks_in_order_witness :
    ([[(⟨12067, "LAP012517".data, true⟩ : ClstrLine)]]).length
      = ([">Cluster 0".data, "0\t12067nt, >LAP012517... *".data].countP
          (fun l => isHeader l)) :=
  (clstrfile_blocks_in_order
    (show ClstrFile.ofLines
        [">Cluster 0".data, "0\t12067nt, >LAP012517... *".data]
      = some [[⟨12067, "LAP012517".data, true⟩]] by decide)).1

/-- C5: `ClstrLine` parsing fails — the constructor raises, `none` here —
when the line contains no `>`, and when the size field is non-numeric;
there is no recovery or fallback result in either case. -/
theorem clstrline_parse_errors :
    (∀ row : List Char, '>' ∉ row → ClstrLine.ofRow row = none) ∧
    (∀ row a b sid szs, splitFirst ['>'] row = some (a, b) →
        pySplit (beforeFirst ['n', 't'] a) = [sid, szs] →
        pyInt szs = none → ClstrLine.ofRow row = none) := by
  constructor
  · intro row hrow
    unfold ClstrLine.ofRow
    rw [splitFirst_single_none hrow]
  · intro row a b sid szs hsp hps hpi
    unfold ClstrLine.ofRow
    rw [hsp]
    simp only [hps, hpi]

theorem clstrline_parse_errors_witness :
    ClstrLine.ofRow "0\t12067nt, LAP012517... at -/99.85%".data = none :=
  clstrline_parse_errors.1 _ (by decide)

/-- C6: `filter` writes exactly the records whose description does not
start with `singleton` and whose embedded cluster size is at least the
configured minimum, in input order; the excluded records are not written. -/
theorem filter_min_cluster_size {α : Type} {minsize : Int}
    {recs : List (List Char × α)} {out : List α}
    (h : filter minsize recs = some out) :
    out = (recs.filter (fun p => keepPred minsize p.1)).map Prod.snd :=
  filter_eq_keepPred h

theorem filter_min_cluster_size_witness :
    ([2] : List Nat)
      = (([("singleton_c1 x y".data, (1 : Nat)),
           ("consensus_for_cluster_0 with 63 sequences".data, 2),
           ("c2 with 3 sequences".data, 3)].filter
            (fun p => keepPred 10 p.1)).map Prod.snd) :=
  filter_min_cluster_size (by decide)

/-- C1: a parsed cluster member line is split at the first `>` separating
size info from the name; the integer size is read from the field before
the `nt` marker; the name is the part after `>` up to the first `...`; and
the representative flag is set iff the last non-whitespace character of
the line is `*`.  The spec's two example lines parse accordingly. -/
theorem clstrline_parse_contract :
    (ClstrLine.ofRow "0\t12067nt, >LAP012517... at -/99.85%".data
       = some ⟨12067, "LAP012517".data, false⟩) ∧
    (ClstrLine.ofRow "1\t15532nt, >MOL158919... *".data
       = some ⟨15532, "MOL158919".data, true⟩) ∧
    (∀ row cl, ClstrLine.ofRow row = some cl →
       (cl.rep = true ↔ lastNonWhitespace row = some '*') ∧
       ∃ a b, row = a ++ '>' :: b ∧ '>' ∉ a ∧
         cl.name = beforeFirst ['.', '.', '.'] b ∧
         ¬ ['.', '.', '.'] <:+: cl.name ∧
         ∃ sid szs, pySplit (beforeFirst ['n', 't'] a) = [sid, szs] ∧
           pyInt szs = some cl.size) := by
  refine ⟨by decide, by decide, ?_⟩
  intro row cl h
  unfold ClstrLine.ofRow at h
  split at h
  · exact absurd h (by simp)
  · next a b hsp =>
    split at h
    · next sid szs hps =>
      split at h
      · exact absurd h (by simp)
      · next n hn =>
        split at h
        · exact absurd h (by simp)
        · next c hc =>
          obtain rfl := Option.some.injEq .. ▸ h
          obtain ⟨hrow, hna⟩ := splitFirst_single_some hsp
          refine ⟨?_, a, b, hrow, hna, rfl,
            beforeFirst_not_infix (by decide), sid, szs, hps, hn⟩
          rw [← getLast_pyRstrip, hc]
          simp
    · exact absurd h (by simp)

theorem clstrline_parse_contract_witness :
    ((⟨15532, "MOL158919".data, true⟩ : ClstrLine).rep = true ↔
      lastNonWhitespace "1\t15532nt, >MOL158919... *".data = some '*') :=
  (clstrline_parse_contract.2.2 _ _ (by decide)).1

theorem prefix_groups_sorted_order_witness :
    ((repsOfCluster 3 0 [⟨5, "BBB1".data, false⟩, ⟨50, "AAA2".data, false⟩]).map
        (fun q => q.2.take 3)).Pairwise (fun a b => lexLt a b = true) :=
  prefix_groups_sorted_order.1 3 0
    [⟨5, "BBB1".data, false⟩, ⟨50, "AAA2".data, false⟩]
